import Mathlib

/-!
Shallow embedding of `src/chain_utils.py` (`GearChain`), the roller-chain
geometry module: roller placement on the pitch circle of a driving gear,
connecting links, decorative pins, and the per-frame updaters that keep the
three collections synchronized to the gear's live rotation.

Machine reals (numpy floats) are modelled by `ℝ`; a Python function that can
raise is modelled as returning `Except String`.
-/

namespace ChainUtils

/-- Points in 3-space, as the length-3 numpy arrays used by the code. -/
abbrev Vec3 : Type := ℝ × ℝ × ℝ

/-- Modelled from the spec: the gear-like object consumed from the external
gear library (`manim_gearbox.Gear`), with read accessors for tooth count `z`,
module `m`, pitch radius `rp`, current rotation angle (`get_angle()`) and
current center (`get_center()`). -/
structure Gear where
  z : ℕ
  m : ℝ
  rp : ℝ
  angle : ℝ
  center : Vec3

namespace Gear

/-- Modelled from the spec: `gear.pitch_angle`, the angular spacing between
consecutive teeth, `2π / toothCount`. -/
noncomputable def pitch_angle (g : Gear) : ℝ := 2 * Real.pi / g.z

/-- Modelled from the spec: `gear.pitch`, the arc length between adjacent
teeth on the pitch circle, `rp · pitch_angle`. -/
noncomputable def pitch (g : Gear) : ℝ := g.rp * g.pitch_angle

end Gear

/-- `GearChain._build_geometry.chain_pos`: Cartesian position of the `nth`
roller; raises `ValueError` when `nth` is outside `[0, z)`. -/
noncomputable def chain_pos (g : Gear) (nth : ℤ) : Except String Vec3 :=
  if nth < 0 ∨ (g.z : ℤ) ≤ nth then
    .error "nth_tooth must be between 0 and z-1"
  else
    .ok (g.center.1 + g.rp * Real.cos (nth * g.pitch_angle + (g.angle + 0.5 * g.pitch_angle)),
         g.center.2.1 + g.rp * Real.sin (nth * g.pitch_angle + (g.angle + 0.5 * g.pitch_angle)),
         g.center.2.2)

/-- The value `chain_pos` computes on the non-raising branch, indexed over
`ℕ` as the construction loops `for n in range(z)` do. -/
noncomputable def chain_posVal (g : Gear) (nth : ℕ) : Vec3 :=
  (g.center.1 + g.rp * Real.cos (nth * g.pitch_angle + (g.angle + 0.5 * g.pitch_angle)),
   g.center.2.1 + g.rp * Real.sin (nth * g.pitch_angle + (g.angle + 0.5 * g.pitch_angle)),
   g.center.2.2)

/-- Euclidean distance of two points, as `Line.get_length` /
`np.linalg.norm` compute it. -/
noncomputable def dist3 (p q : Vec3) : ℝ :=
  Real.sqrt ((p.1 - q.1) ^ 2 + (p.2.1 - q.2.1) ^ 2 + (p.2.2 - q.2.2) ^ 2)

/-- Angular position of roller `nth` as seen from the gear center: the
argument of the cosine/sine in `chain_pos`, regrouped. -/
noncomputable def roller_angle (g : Gear) (nth : ℕ) : ℝ :=
  g.angle + (nth + 0.5) * g.pitch_angle

/-- Point of the pitch circle of gear `g` at angle `θ`. -/
noncomputable def polar_about (g : Gear) (θ : ℝ) : Vec3 :=
  (g.center.1 + g.rp * Real.cos θ, g.center.2.1 + g.rp * Real.sin θ, g.center.2.2)

/-- Straight-line length of link `i` at construction time: the distance
between the centers of roller `i` and roller `(i+1) % z` (`link.get_length()`
right after the `Line` is built between the two roller centers). -/
noncomputable def link_len (g : Gear) (i : ℕ) : ℝ :=
  dist3 (chain_posVal g i) (chain_posVal g ((i + 1) % g.z))

/-- Roller-radius selection in `GearChain.__init__`:
`self.roll_radius = roll_radius or gear.m * PI / 4.0`.  Python `or` takes the
right-hand side when `roll_radius` is `None` or falsy (`0.0`). -/
noncomputable def init_roll_radius (g : Gear) (roll_radius : Option ℝ) : ℝ :=
  match roll_radius with
  | none => g.m * Real.pi / 4.0
  | some r => if r = 0 then g.m * Real.pi / 4.0 else r

/-- Result of `_build_geometry`: the three collections, keeping for each
roller/pin its center and radius and for each link its two endpoints. -/
structure ChainGeometry where
  rolls : List (Vec3 × ℝ)
  links : List (Vec3 × Vec3)
  pins : List (Vec3 × ℝ)

/-- Centers of the rollers as laid out by the construction loop
`for n in range(z): ... .move_to(chain_pos(n))`. -/
noncomputable def roll_centers (g : Gear) : List Vec3 :=
  (List.range g.z).map (chain_posVal g)

/-- Link-construction loop of `_build_geometry`: for each index `i` build the
`Line` from roller `i` to roller `(i+1) % z` and assert its length is
strictly below the gear pitch, raising `AssertionError` otherwise. -/
noncomputable def build_links (g : Gear) (rollCenters : List Vec3) :
    List ℕ → Except String (List (Vec3 × Vec3))
  | [] => .ok []
  | i :: rest =>
    if dist3 (rollCenters.getD i (0, 0, 0)) (rollCenters.getD ((i + 1) % g.z) (0, 0, 0))
        < g.pitch then
      match build_links g rollCenters rest with
      | .ok ls =>
          .ok ((rollCenters.getD i (0, 0, 0), rollCenters.getD ((i + 1) % g.z) (0, 0, 0)) :: ls)
      | .error e => .error e
    else
      .error "Link length exceeds pitch"

/-- `GearChain._build_geometry`: place one roller per tooth at `chain_pos n`,
build the links between consecutive rollers (with the construction-time
length assertion) and the pins at the roller centers. -/
noncomputable def build_geometry (g : Gear) (roll_radius pin_radius : ℝ) :
    Except String ChainGeometry :=
  match build_links g (roll_centers g) (List.range g.z) with
  | .error e => .error e
  | .ok ls =>
      .ok { rolls := (roll_centers g).map fun c => (c, roll_radius)
            links := ls
            pins := (roll_centers g).map fun c => (c, pin_radius) }

/-- Positions of the chain parts at one frame. -/
structure ChainState where
  rollers : List Vec3
  links : List (Vec3 × Vec3)
  pins : List Vec3

/-- One pass of the per-frame updaters: each roller moves to
`chain_pos nth`, each link puts its start and end on the current centers of
its two captured rollers, each pin moves to its roller's center.  Rollers are
updated before links and pins (they were added to the group first), and the
link and pin updaters read the rollers' live centers, so the resulting state
is a pure function of the gear's current state. -/
noncomputable def frame_update (g : Gear) : ChainState :=
  { rollers := roll_centers g
    links := (List.range g.z).map fun i =>
      ((roll_centers g).getD i (0, 0, 0), (roll_centers g).getD ((i + 1) % g.z) (0, 0, 0))
    pins := roll_centers g }

/-- The gear after its rotation angle changed by `Δ`, center unchanged. -/
noncomputable def rotated (g : Gear) (Δ : ℝ) : Gear :=
  { g with angle := g.angle + Δ }

/-- Rotation of a point about `c` by angle `Δ` in the xy-plane. -/
noncomputable def rot_about (c : Vec3) (Δ : ℝ) (p : Vec3) : Vec3 :=
  (c.1 + (p.1 - c.1) * Real.cos Δ - (p.2.1 - c.2.1) * Real.sin Δ,
   c.2.1 + (p.1 - c.1) * Real.sin Δ + (p.2.1 - c.2.1) * Real.cos Δ,
   p.2.2)

/-- Concrete example gear used to instantiate theorems with hypotheses. -/
noncomputable def exGear : Gear :=
  { z := 4, m := 1, rp := 1, angle := 0, center := (0, 0, 0) }

section Helpers

/-- `getD` of a mapped range evaluates to the function at an in-range index. -/
theorem getD_map_range {α : Type} (f : ℕ → α) (n i : ℕ) (d : α) (hi : i < n) :
    ((List.range n).map f).getD i d = f i := by
  rw [List.getD_eq_getElem?_getD, List.getElem?_map, List.getElem?_range hi]
  rfl

/-- In-range indices make `chain_pos` return `chain_posVal`. -/
theorem chain_pos_coe_ok (g : Gear) (i : ℕ) (hi : i < g.z) :
    chain_pos g (i : ℤ) = .ok (chain_posVal g i) := by
  have h : ¬((i : ℤ) < 0 ∨ (g.z : ℤ) ≤ (i : ℤ)) := by
    push_neg
    exact ⟨Int.natCast_nonneg i, by exact_mod_cast hi⟩
  rw [chain_pos, if_neg h, chain_posVal]
  push_cast
  rfl

/-- The construction formula, regrouped as a polar point at `roller_angle`. -/
theorem chain_posVal_polar (g : Gear) (i : ℕ) :
    chain_posVal g i = polar_about g (roller_angle g i) := by
  rw [chain_posVal, polar_about, roller_angle]
  have h : (i : ℝ) * g.pitch_angle + (g.angle + 0.5 * g.pitch_angle)
      = g.angle + ((i : ℝ) + 0.5) * g.pitch_angle := by ring
  rw [h]

/-- Componentwise form of `center + rp • (cos θ, sin θ, 0)`. -/
theorem center_add_smul (g : Gear) (θ : ℝ) :
    g.center + g.rp • ((Real.cos θ, Real.sin θ, 0) : Vec3) = polar_about g θ := by
  rw [polar_about]
  refine Prod.ext ?_ (Prod.ext ?_ ?_) <;>
    simp [Prod.fst_add, Prod.snd_add, Prod.smul_fst, Prod.smul_snd, smul_eq_mul]

/-- An in-range entry of `roll_centers` is the corresponding `chain_posVal`. -/
theorem roll_centers_getD (g : Gear) (i : ℕ) (hi : i < g.z) :
    (roll_centers g).getD i (0, 0, 0) = chain_posVal g i := by
  rw [roll_centers]
  exact getD_map_range _ _ _ _ hi

/-- Rollers of the per-frame state are at `chain_posVal`. -/
theorem frame_update_rollers (g : Gear) (i : ℕ) (hi : i < g.z) :
    (frame_update g).rollers.getD i (0, 0, 0) = chain_posVal g i := by
  rw [frame_update]
  exact roll_centers_getD g i hi

/-- Per-frame link `i` joins the per-frame centers of rollers `i` and
`(i+1) % z`. -/
theorem frame_update_links (g : Gear) (i : ℕ) (hi : i < g.z) :
    (frame_update g).links.getD i ((0, 0, 0), (0, 0, 0))
      = ((frame_update g).rollers.getD i (0, 0, 0),
         (frame_update g).rollers.getD ((i + 1) % g.z) (0, 0, 0)) := by
  rw [frame_update]
  exact getD_map_range _ _ _ _ hi

end Helpers

/-- C1: for every gear and tooth index `i ∈ [0, z)`, the roller position
computed at construction by `chain_pos` — and recomputed by the roller's
per-frame updater — equals `gearCenter + rp • (cos θᵢ, sin θᵢ, 0)` with
`θᵢ = gear.currentRotation + (i + 0.5) · pitchAngle`. -/
theorem roller_position_formula (g : Gear) (i : ℕ) (hi : i < g.z) :
    chain_pos g (i : ℤ)
      = .ok (g.center + g.rp • ((Real.cos (g.angle + ((i : ℝ) + 0.5) * g.pitch_angle),
          Real.sin (g.angle + ((i : ℝ) + 0.5) * g.pitch_angle), 0) : Vec3)) ∧
    (frame_update g).rollers.getD i (0, 0, 0)
      = g.center + g.rp • ((Real.cos (g.angle + ((i : ℝ) + 0.5) * g.pitch_angle),
          Real.sin (g.angle + ((i : ℝ) + 0.5) * g.pitch_angle), 0) : Vec3) := by
  have key : g.center + g.rp • ((Real.cos (g.angle + ((i : ℝ) + 0.5) * g.pitch_angle),
      Real.sin (g.angle + ((i : ℝ) + 0.5) * g.pitch_angle), 0) : Vec3) = chain_posVal g i := by
    rw [center_add_smul, chain_posVal_polar, roller_angle]
  rw [key]
  exact ⟨chain_pos_coe_ok g i hi, frame_update_rollers g i hi⟩

/-- Witness for C1: the formula instantiated at the example gear, index 0. -/
theorem roller_position_formula_witness :
    chain_pos exGear ((0 : ℕ) : ℤ)
      = .ok (exGear.center + exGear.rp •
          ((Real.cos (exGear.angle + (((0 : ℕ) : ℝ) + 0.5) * exGear.pitch_angle),
            Real.sin (exGear.angle + (((0 : ℕ) : ℝ) + 0.5) * exGear.pitch_angle), 0) : Vec3)) ∧
    (frame_update exGear).rollers.getD 0 (0, 0, 0)
      = exGear.center + exGear.rp •
          ((Real.cos (exGear.angle + (((0 : ℕ) : ℝ) + 0.5) * exGear.pitch_angle),
            Real.sin (exGear.angle + (((0 : ℕ) : ℝ) + 0.5) * exGear.pitch_angle), 0) : Vec3) :=
  roller_position_formula exGear 0 (by norm_num [exGear])

/-- C2: `chain_pos` raises the range error exactly on indices outside
`[0, z)`, and returns a position exactly on indices inside `[0, z)`. -/
theorem chain_pos_range_check (g : Gear) (nth : ℤ) :
    ((∃ e, chain_pos g nth = .error e) ↔ nth < 0 ∨ (g.z : ℤ) ≤ nth) ∧
    ((∃ v, chain_pos g nth = .ok v) ↔ 0 ≤ nth ∧ nth < (g.z : ℤ)) := by
  by_cases h : nth < 0 ∨ (g.z : ℤ) ≤ nth
  · rw [chain_pos, if_pos h]
    constructor
    · exact iff_of_true ⟨_, rfl⟩ h
    · exact iff_of_false (by simp) (by omega)
  · rw [chain_pos, if_neg h]
    constructor
    · exact iff_of_false (by simp) (by omega)
    · exact iff_of_true ⟨_, rfl⟩ (by omega)

/-- Distance from a point of the pitch circle to the gear center. -/
theorem dist3_polar_center (g : Gear) (θ : ℝ) (hrp : 0 ≤ g.rp) :
    dist3 (polar_about g θ) g.center = g.rp := by
  rw [polar_about, dist3]
  have h : (g.center.1 + g.rp * Real.cos θ - g.center.1) ^ 2
      + (g.center.2.1 + g.rp * Real.sin θ - g.center.2.1) ^ 2
      + (g.center.2.2 - g.center.2.2) ^ 2 = g.rp ^ 2 := by
    linear_combination g.rp ^ 2 * Real.sin_sq_add_cos_sq θ
  rw [h]
  exact Real.sqrt_sq hrp

/-- C4: for every gear state and every tooth index `i ∈ [0, z)`, the roller
position returned by `chain_pos` lies at exactly distance `rp` from the
gear's current center. -/
theorem roller_on_pitch_circle (g : Gear) (hrp : 0 ≤ g.rp) (i : ℕ) (hi : i < g.z) :
    chain_pos g (i : ℤ) = .ok (chain_posVal g i) ∧
    dist3 (chain_posVal g i) g.center = g.rp := by
  refine ⟨chain_pos_coe_ok g i hi, ?_⟩
  rw [chain_posVal_polar]
  exact dist3_polar_center g _ hrp

/-- Witness for C4 at the example gear, index 3. -/
theorem roller_on_pitch_circle_witness :
    chain_pos exGear ((3 : ℕ) : ℤ) = .ok (chain_posVal exGear 3) ∧
    dist3 (chain_posVal exGear 3) exGear.center = exGear.rp :=
  roller_on_pitch_circle exGear (by norm_num [exGear]) 3 (by norm_num [exGear])

/-- C9: passing `roll_radius = 0` does not produce zero-radius rollers: the
truthiness test `roll_radius or gear.m * PI / 4.0` silently replaces it with
the module-derived default, exactly as if `None` had been passed. -/
theorem roll_radius_zero_defaults (g : Gear) :
    init_roll_radius g (some 0) = g.m * Real.pi / 4 ∧
    init_roll_radius g (some 0) = init_roll_radius g none := by
  constructor <;> norm_num [init_roll_radius]

/-- C5: the angular separation between consecutive rollers `i` and
`(i+1) % z`, measured from the gear center, is exactly `2π/z` as an angle
(i.e. modulo full turns), the gear's pitch angle. -/
theorem roller_angular_separation (g : Gear) (i : ℕ) (hi : i < g.z) :
    chain_posVal g i = polar_about g (roller_angle g i) ∧
    ((roller_angle g ((i + 1) % g.z) - roller_angle g i : ℝ) : Real.Angle)
      = ((2 * Real.pi / g.z : ℝ) : Real.Angle) := by
  refine ⟨chain_posVal_polar g i, ?_⟩
  by_cases hsucc : i + 1 < g.z
  · rw [Nat.mod_eq_of_lt hsucc]
    congr 1
    rw [roller_angle, roller_angle, Gear.pitch_angle]
    push_cast
    ring
  · have hiz : i + 1 = g.z := by omega
    have hmod : (i + 1) % g.z = 0 := by rw [hiz]; exact Nat.mod_self _
    have hzR : ((g.z : ℝ)) ≠ 0 := Nat.cast_ne_zero.mpr (by omega)
    have hcast : (i : ℝ) = (g.z : ℝ) - 1 := by
      have : ((i + 1 : ℕ) : ℝ) = (g.z : ℝ) := by exact_mod_cast congrArg Nat.cast hiz
      push_cast at this
      linarith
    rw [hmod, Real.Angle.angle_eq_iff_two_pi_dvd_sub]
    refine ⟨-1, ?_⟩
    rw [roller_angle, roller_angle, Gear.pitch_angle, hcast]
    push_cast
    field_simp
    ring

/-- Witness for C5 at the example gear: wrap-around index 3 on 4 teeth. -/
theorem roller_angular_separation_witness :
    chain_posVal exGear 3 = polar_about exGear (roller_angle exGear 3) ∧
    ((roller_angle exGear ((3 + 1) % exGear.z) - roller_angle exGear 3 : ℝ) : Real.Angle)
      = ((2 * Real.pi / exGear.z : ℝ) : Real.Angle) :=
  roller_angular_separation exGear 3 (by norm_num [exGear])

/-- C7: after the driving gear's rotation changes by `Δ` (center fixed),
every roller's angular position changes by exactly `Δ`, every roller center
is the old center rotated about the gear center by `Δ` (the position
function commutes with rotating the gear), and the per-frame state keeps
every link's endpoints on the updated roller centers. -/
theorem rotation_equivariance (g : Gear) (Δ : ℝ) (i : ℕ) (hi : i < g.z) :
    roller_angle (rotated g Δ) i = roller_angle g i + Δ ∧
    chain_posVal (rotated g Δ) i = rot_about g.center Δ (chain_posVal g i) ∧
    (frame_update (rotated g Δ)).links.getD i ((0, 0, 0), (0, 0, 0))
      = ((frame_update (rotated g Δ)).rollers.getD i (0, 0, 0),
         (frame_update (rotated g Δ)).rollers.getD ((i + 1) % g.z) (0, 0, 0)) := by
  refine ⟨?_, ?_, frame_update_links (rotated g Δ) i hi⟩
  · rw [roller_angle, roller_angle, rotated]
    show (g.angle + Δ) + ((i : ℝ) + 0.5) * Gear.pitch_angle ⟨g.z, g.m, g.rp, g.angle + Δ, g.center⟩
        = g.angle + ((i : ℝ) + 0.5) * g.pitch_angle + Δ
    rw [Gear.pitch_angle, Gear.pitch_angle]
    ring
  · rw [chain_posVal, chain_posVal, rotated, rot_about]
    have hpa : Gear.pitch_angle ⟨g.z, g.m, g.rp, g.angle + Δ, g.center⟩ = g.pitch_angle := rfl
    refine Prod.ext ?_ (Prod.ext ?_ ?_)
    · show g.center.1 + g.rp * Real.cos ((i : ℝ) * g.pitch_angle + (g.angle + Δ
          + 0.5 * g.pitch_angle)) = g.center.1
        + (g.center.1 + g.rp * Real.cos ((i : ℝ) * g.pitch_angle
            + (g.angle + 0.5 * g.pitch_angle)) - g.center.1) * Real.cos Δ
        - (g.center.2.1 + g.rp * Real.sin ((i : ℝ) * g.pitch_angle
            + (g.angle + 0.5 * g.pitch_angle)) - g.center.2.1) * Real.sin Δ
      rw [show (i : ℝ) * g.pitch_angle + (g.angle + Δ + 0.5 * g.pitch_angle)
          = ((i : ℝ) * g.pitch_angle + (g.angle + 0.5 * g.pitch_angle)) + Δ by ring,
        Real.cos_add]
      ring
    · show g.center.2.1 + g.rp * Real.sin ((i : ℝ) * g.pitch_angle + (g.angle + Δ
          + 0.5 * g.pitch_angle)) = g.center.2.1
        + (g.center.1 + g.rp * Real.cos ((i : ℝ) * g.pitch_angle
            + (g.angle + 0.5 * g.pitch_angle)) - g.center.1) * Real.sin Δ
        + (g.center.2.1 + g.rp * Real.sin ((i : ℝ) * g.pitch_angle
            + (g.angle + 0.5 * g.pitch_angle)) - g.center.2.1) * Real.cos Δ
      rw [show (i : ℝ) * g.pitch_angle + (g.angle + Δ + 0.5 * g.pitch_angle)
          = ((i : ℝ) * g.pitch_angle + (g.angle + 0.5 * g.pitch_angle)) + Δ by ring,
        Real.sin_add]
      ring
    · rfl

/-- Witness for C7 at the example gear, a rotation by `π/3`, index 1. -/
theorem rotation_equivariance_witness :
    roller_angle (rotated exGear (Real.pi / 3)) 1 = roller_angle exGear 1 + Real.pi / 3 ∧
    chain_posVal (rotated exGear (Real.pi / 3)) 1
      = rot_about exGear.center (Real.pi / 3) (chain_posVal exGear 1) ∧
    (frame_update (rotated exGear (Real.pi / 3))).links.getD 1 ((0, 0, 0), (0, 0, 0))
      = ((frame_update (rotated exGear (Real.pi / 3))).rollers.getD 1 (0, 0, 0),
         (frame_update (rotated exGear (Real.pi / 3))).rollers.getD ((1 + 1) % exGear.z)
           (0, 0, 0)) :=
  rotation_equivariance exGear (Real.pi / 3) 1 (by norm_num [exGear])

section BuildLemmas

/-- An `Except` value is an `ok` exactly when it is not an `error`. -/
theorem except_ok_iff_not_error {α β : Type} (x : Except α β) :
    (∃ v, x = .ok v) ↔ ¬∃ e, x = .error e := by
  cases x <;> simp

/-- When every checked link is shorter than the pitch, the link loop
returns all the links. -/
theorem build_links_ok (g : Gear) (rc : List Vec3) (l : List ℕ)
    (h : ∀ i ∈ l, dist3 (rc.getD i (0, 0, 0)) (rc.getD ((i + 1) % g.z) (0, 0, 0)) < g.pitch) :
    build_links g rc l
      = .ok (l.map fun i => (rc.getD i (0, 0, 0), rc.getD ((i + 1) % g.z) (0, 0, 0))) := by
  induction l with
  | nil => rfl
  | cons a t ih =>
    rw [build_links, if_pos (h a (List.mem_cons_self a t)),
      ih fun i hit => h i (List.mem_cons_of_mem a hit)]
    rfl

/-- The value returned by a successful link loop is determined. -/
theorem build_links_ok_val (g : Gear) (rc : List Vec3) (l : List ℕ)
    (ls : List (Vec3 × Vec3)) (h : build_links g rc l = .ok ls) :
    ls = l.map fun i => (rc.getD i (0, 0, 0), rc.getD ((i + 1) % g.z) (0, 0, 0)) := by
  induction l generalizing ls with
  | nil =>
    rw [build_links] at h
    injection h with h'
    rw [← h']
    rfl
  | cons a t ih =>
    rw [build_links] at h
    by_cases hd : dist3 (rc.getD a (0, 0, 0)) (rc.getD ((a + 1) % g.z) (0, 0, 0)) < g.pitch
    · rw [if_pos hd] at h
      cases hb : build_links g rc t with
      | ok ls2 =>
        rw [hb] at h
        injection h with h'
        rw [← h', ih ls2 hb]
        rfl
      | error e =>
        rw [hb] at h
        simp at h
    · rw [if_neg hd] at h
      simp at h

/-- The link loop raises exactly when some checked link fails the length
assertion. -/
theorem build_links_error_iff (g : Gear) (rc : List Vec3) (l : List ℕ) :
    (∃ e, build_links g rc l = .error e) ↔
      ∃ i ∈ l, ¬dist3 (rc.getD i (0, 0, 0)) (rc.getD ((i + 1) % g.z) (0, 0, 0)) < g.pitch := by
  induction l with
  | nil => simp [build_links]
  | cons a t ih =>
    rw [build_links]
    by_cases hd : dist3 (rc.getD a (0, 0, 0)) (rc.getD ((a + 1) % g.z) (0, 0, 0)) < g.pitch
    · rw [if_pos hd]
      constructor
      · rintro ⟨e, he⟩
        cases hb : build_links g rc t with
        | ok ls =>
          rw [hb] at he
          simp at he
        | error e2 =>
          obtain ⟨i, hit, hlen⟩ := ih.mp ⟨e2, hb⟩
          exact ⟨i, List.mem_cons_of_mem a hit, hlen⟩
      · rintro ⟨i, hil, hlen⟩
        rcases List.mem_cons.mp hil with rfl | hit
        · exact absurd hd hlen
        · obtain ⟨e, he⟩ := ih.mpr ⟨i, hit, hlen⟩
          rw [he]
          exact ⟨e, rfl⟩
    · rw [if_neg hd]
      exact iff_of_true ⟨_, rfl⟩ ⟨a, List.mem_cons_self a t, hd⟩

/-- When every link is shorter than the pitch, `_build_geometry` succeeds
with the fully determined geometry. -/
theorem build_geometry_ok (g : Gear) (rr pr : ℝ)
    (h : ∀ i, i < g.z → link_len g i < g.pitch) :
    build_geometry g rr pr = .ok
      { rolls := (roll_centers g).map fun c => (c, rr)
        links := (List.range g.z).map fun i =>
          ((roll_centers g).getD i (0, 0, 0), (roll_centers g).getD ((i + 1) % g.z) (0, 0, 0))
        pins := (roll_centers g).map fun c => (c, pr) } := by
  rw [build_geometry, build_links_ok]
  intro i hmem
  rw [List.mem_range] at hmem
  have hz0 : 0 < g.z := by omega
  rw [roll_centers_getD g i hmem, roll_centers_getD g ((i + 1) % g.z) (Nat.mod_lt _ hz0)]
  exact h i hmem

/-- The geometry produced by a successful `_build_geometry` is determined. -/
theorem build_geometry_ok_val (g : Gear) (rr pr : ℝ) (geom : ChainGeometry)
    (h : build_geometry g rr pr = .ok geom) :
    geom.rolls = (roll_centers g).map (fun c => (c, rr)) ∧
    geom.links = (List.range g.z).map (fun i =>
      ((roll_centers g).getD i (0, 0, 0), (roll_centers g).getD ((i + 1) % g.z) (0, 0, 0))) ∧
    geom.pins = (roll_centers g).map (fun c => (c, pr)) := by
  rw [build_geometry] at h
  cases hb : build_links g (roll_centers g) (List.range g.z) with
  | error e =>
    rw [hb] at h
    simp at h
  | ok ls =>
    rw [hb] at h
    injection h with h'
    rw [← h']
    exact ⟨rfl, by rw [build_links_ok_val g _ _ ls hb], rfl⟩

end BuildLemmas

/-- C3: construction raises the link-length assertion exactly when some
initial link's straight-line length is at least the gear pitch; otherwise
construction completes without raising it. -/
theorem construction_assert_iff (g : Gear) (rr pr : ℝ) :
    ((∃ e, build_geometry g rr pr = .error e)
       ↔ ∃ i, i < g.z ∧ g.pitch ≤ link_len g i) ∧
    ((∃ geom, build_geometry g rr pr = .ok geom)
       ↔ ∀ i, i < g.z → link_len g i < g.pitch) := by
  have herr : (∃ e, build_geometry g rr pr = .error e)
      ↔ ∃ i, i < g.z ∧ g.pitch ≤ link_len g i := by
    have step : (∃ e, build_geometry g rr pr = .error e)
        ↔ ∃ e, build_links g (roll_centers g) (List.range g.z) = .error e := by
      rw [build_geometry]
      cases hb : build_links g (roll_centers g) (List.range g.z) with
      | ok ls => simp
      | error e => simp
    rw [step, build_links_error_iff]
    constructor
    · rintro ⟨i, hmem, hlen⟩
      rw [List.mem_range] at hmem
      have hz0 : 0 < g.z := by omega
      refine ⟨i, hmem, not_lt.mp ?_⟩
      rw [link_len, ← roll_centers_getD g i hmem,
        ← roll_centers_getD g ((i + 1) % g.z) (Nat.mod_lt _ hz0)]
      exact hlen
    · rintro ⟨i, hlt, hlen⟩
      have hz0 : 0 < g.z := by omega
      refine ⟨i, List.mem_range.mpr hlt, ?_⟩
      rw [roll_centers_getD g i hlt, roll_centers_getD g ((i + 1) % g.z) (Nat.mod_lt _ hz0)]
      exact not_lt.mpr hlen
  refine ⟨herr, ?_⟩
  rw [except_ok_iff_not_error, herr]
  push_neg
  simp [not_le]

section ChordLemmas

/-- Squared distance between two points of the pitch circle. -/
theorem dist3_polar_polar_sq (g : Gear) (a b : ℝ) :
    dist3 (polar_about g a) (polar_about g b) ^ 2
      = 2 * g.rp ^ 2 * (1 - Real.cos (a - b)) := by
  simp only [dist3, polar_about]
  rw [Real.sq_sqrt (by positivity), Real.cos_sub]
  linear_combination g.rp ^ 2 * Real.sin_sq_add_cos_sq a
    + g.rp ^ 2 * Real.sin_sq_add_cos_sq b

/-- Every initial link is a chord of the pitch circle of length
`2·rp·sin(π/z)` — for both the consecutive links and the wrap-around link. -/
theorem link_len_chord (g : Gear) (hrp : 0 ≤ g.rp) (i : ℕ) (hi : i < g.z) :
    link_len g i = 2 * g.rp * Real.sin (Real.pi / g.z) := by
  have hz0 : 0 < g.z := by omega
  have hzR : (0 : ℝ) < (g.z : ℝ) := by exact_mod_cast hz0
  have hz1R : (1 : ℝ) ≤ (g.z : ℝ) := by exact_mod_cast hz0
  have hsin : 0 ≤ Real.sin (Real.pi / g.z) :=
    Real.sin_nonneg_of_nonneg_of_le_pi (le_of_lt (div_pos Real.pi_pos hzR))
      (div_le_self Real.pi_pos.le hz1R)
  have hlhs : 0 ≤ link_len g i := Real.sqrt_nonneg _
  have hrhs : 0 ≤ 2 * g.rp * Real.sin (Real.pi / g.z) := by positivity
  refine (sq_eq_sq₀ hlhs hrhs).mp ?_
  rw [link_len, chain_posVal_polar, chain_posVal_polar, dist3_polar_polar_sq]
  by_cases hsucc : i + 1 < g.z
  · rw [Nat.mod_eq_of_lt hsucc]
    have harg : roller_angle g i - roller_angle g (i + 1) = -(2 * (Real.pi / g.z)) := by
      rw [roller_angle, roller_angle, Gear.pitch_angle]
      push_cast
      ring
    rw [harg, Real.cos_neg, Real.cos_two_mul]
    linear_combination (-4 : ℝ) * g.rp ^ 2 * Real.sin_sq_add_cos_sq (Real.pi / g.z)
  · have hiz : i + 1 = g.z := by omega
    have hmod : (i + 1) % g.z = 0 := by rw [hiz]; exact Nat.mod_self _
    have hcast : (i : ℝ) = (g.z : ℝ) - 1 := by
      have h2 : ((i + 1 : ℕ) : ℝ) = (g.z : ℝ) := by exact_mod_cast congrArg Nat.cast hiz
      push_cast at h2
      linarith
    rw [hmod]
    have harg : roller_angle g i - roller_angle g 0
        = 2 * Real.pi - 2 * (Real.pi / g.z) := by
      rw [roller_angle, roller_angle, Gear.pitch_angle, hcast]
      push_cast
      field_simp
      ring
    rw [harg, Real.cos_two_pi_sub, Real.cos_two_mul]
    linear_combination (-4 : ℝ) * g.rp ^ 2 * Real.sin_sq_add_cos_sq (Real.pi / g.z)

/-- The chord between adjacent rollers is strictly shorter than the pitch
arc, for any tooth count `z ≥ 1` and pitch radius `rp > 0`. -/
theorem link_len_lt_pitch (g : Gear) (hz : 1 ≤ g.z) (hrp : 0 < g.rp) (i : ℕ)
    (hi : i < g.z) :
    link_len g i < g.pitch := by
  have hzR : (0 : ℝ) < (g.z : ℝ) := by exact_mod_cast (by omega : 0 < g.z)
  rw [link_len_chord g hrp.le i hi, Gear.pitch, Gear.pitch_angle]
  have hx : (0 : ℝ) < Real.pi / g.z := div_pos Real.pi_pos hzR
  calc 2 * g.rp * Real.sin (Real.pi / g.z)
      < 2 * g.rp * (Real.pi / g.z) :=
        mul_lt_mul_of_pos_left (Real.sin_lt hx) (by positivity)
    _ = g.rp * (2 * Real.pi / g.z) := by ring

end ChordLemmas

/-- C10: the construction-time link-length assertion can never fire for a
gear with `z ≥ 1` teeth and pitch radius `rp > 0`: every initial link is a
chord of the pitch circle of length `2·rp·sin(π/z)`, strictly less than the
arc length `rp·2π/z`, independently of the roller radius, so construction
always succeeds. -/
theorem assert_branch_unreachable (g : Gear) (rr pr : ℝ) (hz : 1 ≤ g.z)
    (hrp : 0 < g.rp) :
    (∀ i, i < g.z → link_len g i = 2 * g.rp * Real.sin (Real.pi / g.z)
        ∧ link_len g i < g.pitch) ∧
    ∃ geom, build_geometry g rr pr = .ok geom := by
  refine ⟨fun i hi => ⟨link_len_chord g hrp.le i hi, link_len_lt_pitch g hz hrp i hi⟩, ?_⟩
  exact ⟨_, build_geometry_ok g rr pr fun i hi => link_len_lt_pitch g hz hrp i hi⟩

/-- Witness for C10 at the example gear. -/
theorem assert_branch_unreachable_witness :
    (∀ i, i < exGear.z → link_len exGear i
        = 2 * exGear.rp * Real.sin (Real.pi / exGear.z)
        ∧ link_len exGear i < exGear.pitch) ∧
    ∃ geom, build_geometry exGear 0.3 0.1 = .ok geom :=
  assert_branch_unreachable exGear 0.3 0.1 (by norm_num [exGear]) (by norm_num [exGear])

/-- Concrete geometry produced by construction at the example gear. -/
noncomputable def exGeom (rr pr : ℝ) : ChainGeometry :=
  { rolls := (roll_centers exGear).map fun c => (c, rr)
    links := (List.range exGear.z).map fun i =>
      ((roll_centers exGear).getD i (0, 0, 0),
       (roll_centers exGear).getD ((i + 1) % exGear.z) (0, 0, 0))
    pins := (roll_centers exGear).map fun c => (c, pr) }

/-- Construction succeeds at the example gear, with the geometry above. -/
theorem exGear_build (rr pr : ℝ) : build_geometry exGear rr pr = .ok (exGeom rr pr) :=
  build_geometry_ok exGear rr pr fun i hi =>
    link_len_lt_pitch exGear (by norm_num [exGear]) (by norm_num [exGear]) i hi

/-- C6: after construction the chain is a closed ring — `z` rollers, `z`
links and `z` pins — whose link `i` joins the initial centers of rollers `i`
and `(i+1) % z`, and at every frame each link's endpoints equal the live
centers of its two adjacent rollers. -/
theorem chain_closed_ring (g : Gear) (rr pr : ℝ) (geom : ChainGeometry)
    (h : build_geometry g rr pr = .ok geom) :
    geom.rolls.length = g.z ∧ geom.links.length = g.z ∧ geom.pins.length = g.z ∧
    (∀ i, i < g.z → geom.links.getD i ((0, 0, 0), (0, 0, 0))
        = (chain_posVal g i, chain_posVal g ((i + 1) % g.z))) ∧
    (frame_update g).rollers.length = g.z ∧
    (frame_update g).links.length = g.z ∧
    (frame_update g).pins.length = g.z ∧
    ∀ i, i < g.z →
      (frame_update g).links.getD i ((0, 0, 0), (0, 0, 0))
        = ((frame_update g).rollers.getD i (0, 0, 0),
           (frame_update g).rollers.getD ((i + 1) % g.z) (0, 0, 0)) := by
  obtain ⟨hrolls, hlinks, hpins⟩ := build_geometry_ok_val g rr pr geom h
  refine ⟨?_, ?_, ?_, ?_, ?_, ?_, ?_, fun i hi => frame_update_links g i hi⟩
  · rw [hrolls, List.length_map, roll_centers, List.length_map, List.length_range]
  · rw [hlinks, List.length_map, List.length_range]
  · rw [hpins, List.length_map, roll_centers, List.length_map, List.length_range]
  · intro i hi
    have hz0 : 0 < g.z := by omega
    rw [hlinks, getD_map_range _ _ _ _ hi, roll_centers_getD g i hi,
      roll_centers_getD g ((i + 1) % g.z) (Nat.mod_lt _ hz0)]
  · simp [frame_update, roll_centers]
  · simp [frame_update]
  · simp [frame_update, roll_centers]

/-- Witness for C6 at the example gear. -/
theorem chain_closed_ring_witness :
    (exGeom 0.2 0.1).rolls.length = exGear.z ∧
    (exGeom 0.2 0.1).links.length = exGear.z ∧
    (exGeom 0.2 0.1).pins.length = exGear.z ∧
    (∀ i, i < exGear.z → (exGeom 0.2 0.1).links.getD i ((0, 0, 0), (0, 0, 0))
        = (chain_posVal exGear i, chain_posVal exGear ((i + 1) % exGear.z))) ∧
    (frame_update exGear).rollers.length = exGear.z ∧
    (frame_update exGear).links.length = exGear.z ∧
    (frame_update exGear).pins.length = exGear.z ∧
    ∀ i, i < exGear.z →
      (frame_update exGear).links.getD i ((0, 0, 0), (0, 0, 0))
        = ((frame_update exGear).rollers.getD i (0, 0, 0),
           (frame_update exGear).rollers.getD ((i + 1) % exGear.z) (0, 0, 0)) :=
  chain_closed_ring exGear 0.2 0.1 (exGeom 0.2 0.1) (exGear_build 0.2 0.1)

/-- C8: when `roll_radius` is not supplied (`None`), the constructor sets the
roller radius to the module-derived constant `m·π/4`, and every roller
circle is created with that radius. -/
theorem default_roll_radius_used (g : Gear) (pr : ℝ) (geom : ChainGeometry)
    (h : build_geometry g (init_roll_radius g none) pr = .ok geom) :
    init_roll_radius g none = g.m * Real.pi / 4 ∧
    ∀ p ∈ geom.rolls, p.2 = g.m * Real.pi / 4 := by
  have hdef : init_roll_radius g none = g.m * Real.pi / 4 := by
    norm_num [init_roll_radius]
  refine ⟨hdef, ?_⟩
  obtain ⟨hrolls, -, -⟩ := build_geometry_ok_val g _ pr geom h
  intro p hp
  rw [hrolls] at hp
  obtain ⟨c, -, rfl⟩ := List.mem_map.mp hp
  exact hdef

/-- Witness for C8 at the example gear. -/
theorem default_roll_radius_used_witness :
    init_roll_radius exGear none = exGear.m * Real.pi / 4 ∧
    ∀ p ∈ (exGeom (init_roll_radius exGear none) 0.1).rolls,
      p.2 = exGear.m * Real.pi / 4 :=
  default_roll_radius_used exGear 0.1 (exGeom (init_roll_radius exGear none) 0.1)
    (exGear_build (init_roll_radius exGear none) 0.1)

end ChainUtils
